import Mathlib

/-!
Verification of the task-and-actor execution engine specified for the
`ray_quickstart.py` walkthrough.  The repository only exercises the API of an
external runtime, so the engine itself (futures, scheduler, actor runtime) is
modelled from the specification; the concrete functions, task graphs and actor
classes exercised by the walkthrough (`f`, `add`, `Counter`, `MessageActor`,
the chain / tree / while-loop aggregation shapes) are translated from the
source file.
-/

/-- Modelled from the spec: the resolution state of a FutureRef (section 3):
Pending, Resolved with a value, or Failed.  Task values are modelled as
integers. -/
inductive FutureState where
  | pending : FutureState
  | resolved : Int → FutureState
  | failed : FutureState
deriving DecidableEq

/-- Modelled from the spec: an argument slot of a task invocation is either a
literal value or a FutureRef naming the producing task (sections 3 and 9). -/
inductive Arg where
  | lit : Int → Arg
  | ref : Nat → Arg
deriving DecidableEq

/-- Modelled from the spec: a TaskInvocation is a function reference plus an
ordered list of argument slots (section 3).  The task id is the index of the
invocation in the engine's task list.  The function returns `none` when the
task body raises an ExecutionError. -/
structure TaskInvocation where
  fn : List Int → Option Int
  args : List Arg

/-- Modelled from the spec: the engine state — the submitted tasks, one future
per task (same index), and the log of task ids whose bodies were actually
dispatched to a worker. -/
structure EngineState where
  tasks : List TaskInvocation
  futures : List FutureState
  execLog : List Nat

/-- The empty engine, before any submission. -/
def EngineState.init : EngineState := ⟨[], [], []⟩

/-- Turn the outcome of running a task body into a future state: a returned
value resolves the future, a raised error fails it. -/
def FutureState.ofResult : Option Int → FutureState
  | some v => .resolved v
  | none => .failed

/-- The value an argument slot contributes: a literal is immediate, a
FutureRef contributes only once its future is Resolved. -/
def argVal (fs : List FutureState) : Arg → Option Int
  | .lit v => some v
  | .ref t =>
    match fs[t]? with
    | some (.resolved v) => some v
    | _ => none

/-- The resolved values of a whole argument list; `none` unless every
FutureRef argument is Resolved. -/
def argVals (fs : List FutureState) : List Arg → Option (List Int)
  | [] => some []
  | a :: rest =>
    match argVal fs a, argVals fs rest with
    | some v, some vs => some (v :: vs)
    | _, _ => none

/-- Whether some FutureRef argument is in the Failed state. -/
def hasFailedDep (fs : List FutureState) (args : List Arg) : Bool :=
  args.any fun a =>
    match a with
    | .ref t =>
      match fs[t]? with
      | some .failed => true
      | _ => false
    | .lit _ => false

/-- Modelled from the spec: `submit` records the invocation with a fresh id
and a Pending future and returns the FutureRef (its id) immediately. -/
def EngineState.submit (s : EngineState) (inv : TaskInvocation) :
    EngineState × Nat :=
  (⟨s.tasks ++ [inv], s.futures ++ [.pending], s.execLog⟩, s.tasks.length)

/-- Modelled from the spec: blocking retrieval of one future, observed at a
state where it is settled; `none` while still Pending or when Failed. -/
def EngineState.resolve (s : EngineState) (r : Nat) : Option Int :=
  match s.futures[r]? with
  | some (.resolved v) => some v
  | _ => none

/-- Modelled from the spec: batch retrieval — results are returned in the
same order as the requested refs. -/
def EngineState.resolveMany (s : EngineState) : List Nat → Option (List Int)
  | [] => some []
  | r :: rest =>
    match s.resolve r, s.resolveMany rest with
    | some v, some vs => some (v :: vs)
    | _, _ => none

/-- Modelled from the spec: one scheduler/worker dispatch attempt at task
`t`.  A Pending task with a Failed dependency is marked Failed without
executing; a Pending task whose FutureRef arguments are all Resolved is
executed and its future settled from the body's outcome; anything else is a
no-op. -/
def EngineState.runTask (s : EngineState) (t : Nat) : EngineState :=
  match s.tasks[t]?, s.futures[t]? with
  | some inv, some .pending =>
    if hasFailedDep s.futures inv.args then
      ⟨s.tasks, s.futures.set t .failed, s.execLog⟩
    else
      match argVals s.futures inv.args with
      | some vs =>
        ⟨s.tasks, s.futures.set t (FutureState.ofResult (inv.fn vs)),
          s.execLog ++ [t]⟩
      | none => s
  | _, _ => s

/-- Run dispatch attempts in the given order of task ids. -/
def runTasksInOrder (s : EngineState) (order : List Nat) : EngineState :=
  order.foldl EngineState.runTask s

/-- Run every task of the engine once, in ascending id order (ids only refer
backwards, so this order respects all dependencies). -/
def runAll (s : EngineState) : EngineState :=
  runTasksInOrder s (List.range s.tasks.length)

/-- Modelled from the spec: the engine's atomic operations as a step
relation — task submission (FutureRef arguments must name existing tasks),
dispatch of an eligible task (all FutureRef arguments Resolved), and failure
propagation to a task one of whose dependencies Failed. -/
inductive EngineStep : EngineState → EngineState → Prop where
  | submit (s : EngineState) (inv : TaskInvocation)
      (href : ∀ u, Arg.ref u ∈ inv.args → u < s.tasks.length) :
      EngineStep s (s.submit inv).1
  | execute (s : EngineState) (t : Nat) (inv : TaskInvocation) (vs : List Int)
      (htask : s.tasks[t]? = some inv)
      (hpend : s.futures[t]? = some .pending)
      (hvals : argVals s.futures inv.args = some vs) :
      EngineStep s
        ⟨s.tasks, s.futures.set t (FutureState.ofResult (inv.fn vs)),
          s.execLog ++ [t]⟩
  | propagate (s : EngineState) (t : Nat) (inv : TaskInvocation) (u : Nat)
      (htask : s.tasks[t]? = some inv)
      (hpend : s.futures[t]? = some .pending)
      (hu : Arg.ref u ∈ inv.args)
      (hufail : s.futures[u]? = some .failed) :
      EngineStep s ⟨s.tasks, s.futures.set t .failed, s.execLog⟩

/-- States the engine can reach from the empty initial state. -/
def Reachable (s : EngineState) : Prop :=
  Relation.ReflTransGen EngineStep EngineState.init s

/-- A state is quiescent when no dispatch or failure-propagation step is
enabled: every still-Pending task has some unresolved dependency and no
Failed dependency. -/
def quiescent (s : EngineState) : Bool :=
  (List.range s.tasks.length).all fun t =>
    match s.tasks[t]?, s.futures[t]? with
    | some inv, some .pending =>
      decide (argVals s.futures inv.args = none) &&
        !hasFailedDep s.futures inv.args
    | _, _ => true

/-- Futures map `fs'` preserves every settled (non-Pending) entry of `fs`. -/
def SettledLE (fs fs' : List FutureState) : Prop :=
  ∀ (u : Nat) (st : FutureState),
    st ≠ .pending → fs[u]? = some st → fs'[u]? = some st

theorem settledLE_refl (fs : List FutureState) : SettledLE fs fs :=
  fun _ _ _ h => h

theorem settledLE_trans {fs fs' fs'' : List FutureState}
    (h1 : SettledLE fs fs') (h2 : SettledLE fs' fs'') : SettledLE fs fs'' :=
  fun u st hne h => h2 u st hne (h1 u st hne h)

theorem getElem?_some_lt {α : Type} {l : List α} {n : Nat} {a : α}
    (h : l[n]? = some a) : n < l.length :=
  (List.getElem?_eq_some.mp h).1

theorem argVal_mono {fs fs' : List FutureState} (hle : SettledLE fs fs')
    {a : Arg} {v : Int} (h : argVal fs a = some v) : argVal fs' a = some v := by
  cases a with
  | lit w => simpa [argVal] using h
  | ref t =>
    simp only [argVal] at h ⊢
    rcases hfs : fs[t]? with _ | st
    · rw [hfs] at h; simp at h
    · rw [hfs] at h
      cases st with
      | pending => simp at h
      | resolved w =>
        simp at h
        rw [hle t (.resolved w) (by simp) hfs, h]
      | failed => simp at h

theorem argVals_mono {fs fs' : List FutureState} (hle : SettledLE fs fs') :
    ∀ {args : List Arg} {vs : List Int},
      argVals fs args = some vs → argVals fs' args = some vs := by
  intro args
  induction args with
  | nil => intro vs h; simpa [argVals] using h
  | cons a rest ih =>
    intro vs h
    simp only [argVals] at h ⊢
    rcases hv : argVal fs a with _ | v
    · rw [hv] at h; simp at h
    · rw [hv] at h
      rcases hvs : argVals fs rest with _ | ws
      · rw [hvs] at h; simp at h
      · rw [hvs] at h
        rw [argVal_mono hle hv, ih hvs]
        exact h

theorem argVals_lit (fs : List FutureState) (xs : List Int) :
    argVals fs (xs.map Arg.lit) = some xs := by
  induction xs with
  | nil => rfl
  | cons x rest ih => simp [argVals, argVal, ih]

theorem hasFailedDep_lit (fs : List FutureState) (xs : List Int) :
    hasFailedDep fs (xs.map Arg.lit) = false := by
  induction xs with
  | nil => rfl
  | cons x rest ih => simpa [hasFailedDep] using ih

theorem argVals_some_ref {fs : List FutureState} {args : List Arg}
    {vs : List Int} (h : argVals fs args = some vs) {u : Nat}
    (hu : Arg.ref u ∈ args) : ∃ v, fs[u]? = some (.resolved v) := by
  induction args generalizing vs with
  | nil => cases hu
  | cons a rest ih =>
    simp only [argVals] at h
    rcases hv : argVal fs a with _ | v <;> rw [hv] at h
    · simp at h
    · rcases hvs : argVals fs rest with _ | ws <;> rw [hvs] at h
      · simp at h
      · rcases List.mem_cons.mp hu with rfl | hmem
        · simp only [argVal] at hv
          rcases hfs : fs[u]? with _ | st <;> rw [hfs] at hv
          · simp at hv
          · cases st with
            | pending => simp at hv
            | resolved w => exact ⟨w, rfl⟩
            | failed => simp at hv
        · exact ih hvs hmem

theorem argVals_of_forall {fs : List FutureState} {args : List Arg}
    (h : ∀ a ∈ args, ∃ v, argVal fs a = some v) :
    ∃ vs, argVals fs args = some vs := by
  induction args with
  | nil => exact ⟨[], rfl⟩
  | cons a rest ih =>
    obtain ⟨v, hv⟩ := h a (List.mem_cons_self a rest)
    obtain ⟨vs, hvs⟩ := ih fun b hb => h b (List.mem_cons_of_mem a hb)
    exact ⟨v :: vs, by simp [argVals, hv, hvs]⟩

theorem hasFailedDep_iff {fs : List FutureState} {args : List Arg} :
    hasFailedDep fs args = true ↔
      ∃ u, Arg.ref u ∈ args ∧ fs[u]? = some .failed := by
  constructor
  · intro h
    obtain ⟨a, ha, hvala⟩ := List.any_eq_true.mp h
    cases a with
    | lit v => simp at hvala
    | ref u =>
      refine ⟨u, ha, ?_⟩
      simp only at hvala
      rcases hfs : fs[u]? with _ | st
      · simp [hfs] at hvala
      · cases st with
        | pending => simp [hfs] at hvala
        | resolved w => simp [hfs] at hvala
        | failed => rfl
  · rintro ⟨u, hu, hfail⟩
    exact List.any_eq_true.mpr ⟨Arg.ref u, hu, by simp [hfail]⟩

theorem step_settledLE {s s' : EngineState} (h : EngineStep s s') :
    SettledLE s.futures s'.futures := by
  intro u st hne hst
  cases h with
  | submit inv href =>
    simp only [EngineState.submit]
    rw [List.getElem?_append_left (getElem?_some_lt hst)]
    exact hst
  | execute t inv vs htask hpend hvals =>
    have hne' : t ≠ u := by
      intro h; rw [h] at hpend; rw [hpend] at hst
      exact hne (by injection hst with h2; exact h2.symm)
    simpa [List.getElem?_set_ne hne'] using hst
  | propagate t inv w htask hpend hw hwfail =>
    have hne' : t ≠ u := by
      intro h; rw [h] at hpend; rw [hpend] at hst
      exact hne (by injection hst with h2; exact h2.symm)
    simpa [List.getElem?_set_ne hne'] using hst

theorem star_settledLE {s s' : EngineState}
    (h : Relation.ReflTransGen EngineStep s s') :
    SettledLE s.futures s'.futures := by
  induction h with
  | refl => exact settledLE_refl _
  | tail _ hstep ih => exact settledLE_trans ih (step_settledLE hstep)

theorem quiescent_pending {s : EngineState} (hq : quiescent s = true)
    {t : Nat} {inv : TaskInvocation} (htask : s.tasks[t]? = some inv)
    (hpend : s.futures[t]? = some .pending) :
    argVals s.futures inv.args = none ∧
      hasFailedDep s.futures inv.args = false := by
  have ht : t < s.tasks.length := getElem?_some_lt htask
  have := List.all_eq_true.mp hq t (List.mem_range.mpr ht)
  rw [htask, hpend] at this
  simp only [Bool.and_eq_true, decide_eq_true_eq, Bool.not_eq_eq_eq_not,
    Bool.not_true] at this
  exact ⟨this.1, by simpa using this.2⟩

/-- The engine's global invariant: futures and tasks stay aligned, FutureRef
arguments only point backwards, every dispatched task had all of its
FutureRef arguments Resolved, a Resolved future records its task's actual
output on the resolved argument values, and a Failed future comes either
from its own body erroring or from a Failed dependency. -/
def EngineInv (s : EngineState) : Prop :=
  s.futures.length = s.tasks.length ∧
  (∀ (t : Nat) (inv : TaskInvocation), s.tasks[t]? = some inv →
    ∀ u, Arg.ref u ∈ inv.args → u < t) ∧
  (∀ t ∈ s.execLog, ∃ inv vs, s.tasks[t]? = some inv ∧
    argVals s.futures inv.args = some vs) ∧
  (∀ (t : Nat) (v : Int), s.futures[t]? = some (.resolved v) →
    ∃ inv vs, s.tasks[t]? = some inv ∧ argVals s.futures inv.args = some vs ∧
      inv.fn vs = some v ∧ t ∈ s.execLog) ∧
  (∀ (t : Nat), s.futures[t]? = some .failed →
    (t ∈ s.execLog ∧ ∃ inv vs, s.tasks[t]? = some inv ∧
        argVals s.futures inv.args = some vs ∧ inv.fn vs = none) ∨
    (∃ inv u, s.tasks[t]? = some inv ∧ Arg.ref u ∈ inv.args ∧
        s.futures[u]? = some .failed))

theorem inv_init : EngineInv EngineState.init := by
  refine ⟨rfl, ?_, ?_, ?_, ?_⟩ <;>
    simp [EngineState.init]

theorem getElem?_append_snoc {α : Type} (l : List α) (x : α) (n : Nat)
    (hn : n < l.length + 1) :
    (l ++ [x])[n]? = if n < l.length then l[n]? else some x := by
  by_cases h : n < l.length
  · rw [List.getElem?_append_left h, if_pos h]
  · have : n = l.length := by omega
    subst this
    rw [List.getElem?_concat_length, if_neg h]

theorem step_inv {s s' : EngineState} (h : EngineStep s s') (hinv : EngineInv s) :
    EngineInv s' := by
  obtain ⟨hlen, hback, hdisp, hres, hfail⟩ := hinv
  have hle := step_settledLE h
  cases h with
  | submit inv href =>
    simp only [EngineState.submit]
    refine ⟨by simp [hlen], ?_, ?_, ?_, ?_⟩
    · intro t tinv htask u hu
      have ht : t < s.tasks.length + 1 := by
        have := getElem?_some_lt htask
        simpa using this
      rw [getElem?_append_snoc _ _ _ ht] at htask
      by_cases hlt : t < s.tasks.length
      · rw [if_pos hlt] at htask
        exact hback t tinv htask u hu
      · rw [if_neg hlt] at htask
        injection htask with htask
        subst htask
        have := href u hu
        omega
    · intro t htl
      obtain ⟨tinv, vs, htask, hvals⟩ := hdisp t htl
      exact ⟨tinv, vs,
        by rw [List.getElem?_append_left (getElem?_some_lt htask)]; exact htask,
        argVals_mono hle hvals⟩
    · intro t v htv
      have ht : t < s.futures.length + 1 := by
        have := getElem?_some_lt htv
        simpa using this
      rw [getElem?_append_snoc _ _ _ ht] at htv
      by_cases hlt : t < s.futures.length
      · rw [if_pos hlt] at htv
        obtain ⟨tinv, vs, htask, hvals, hfn, htl⟩ := hres t v htv
        exact ⟨tinv, vs,
          by rw [List.getElem?_append_left (getElem?_some_lt htask)]; exact htask,
          argVals_mono hle hvals, hfn, htl⟩
      · rw [if_neg hlt] at htv
        exact absurd htv (by simp)
    · intro t htv
      have ht : t < s.futures.length + 1 := by
        have := getElem?_some_lt htv
        simpa using this
      rw [getElem?_append_snoc _ _ _ ht] at htv
      by_cases hlt : t < s.futures.length
      · rw [if_pos hlt] at htv
        rcases hfail t htv with ⟨htl, tinv, vs, htask, hvals, hfn⟩ | hdep
        · exact Or.inl ⟨htl, tinv, vs,
            by rw [List.getElem?_append_left (getElem?_some_lt htask)]; exact htask,
            argVals_mono hle hvals, hfn⟩
        · obtain ⟨tinv, u, htask, hu, hufail⟩ := hdep
          exact Or.inr ⟨tinv, u,
            by rw [List.getElem?_append_left (getElem?_some_lt htask)]; exact htask,
            hu, hle u .failed (by simp) hufail⟩
      · rw [if_neg hlt] at htv
        exact absurd htv (by simp)
  | execute t0 inv0 vs0 htask0 hpend0 hvals0 =>
    have ht0 : t0 < s.futures.length := getElem?_some_lt hpend0
    refine ⟨by simp [hlen], hback, ?_, ?_, ?_⟩
    · intro t htl
      rcases List.mem_append.mp htl with htl | htl
      · obtain ⟨tinv, vs, htask, hvals⟩ := hdisp t htl
        exact ⟨tinv, vs, htask, argVals_mono hle hvals⟩
      · have : t = t0 := by simpa using htl
        subst this
        exact ⟨inv0, vs0, htask0, argVals_mono hle hvals0⟩
    · intro t v htv
      by_cases hteq : t = t0
      · subst hteq
        rw [List.getElem?_set_eq_of_lt _ ht0] at htv
        injection htv with htv
        refine ⟨inv0, vs0, htask0, argVals_mono hle hvals0, ?_, by simp⟩
        rcases hfn : inv0.fn vs0 with _ | w <;> rw [hfn] at htv <;>
          simp [FutureState.ofResult] at htv
        rw [htv]
      · rw [List.getElem?_set_ne (fun hh => hteq hh.symm)] at htv
        obtain ⟨tinv, vs, htask, hvals, hfn, htl⟩ := hres t v htv
        exact ⟨tinv, vs, htask, argVals_mono hle hvals, hfn, by simp [htl]⟩
    · intro t htv
      by_cases hteq : t = t0
      · subst hteq
        rw [List.getElem?_set_eq_of_lt _ ht0] at htv
        injection htv with htv
        refine Or.inl ⟨by simp, inv0, vs0, htask0, argVals_mono hle hvals0, ?_⟩
        rcases hfn : inv0.fn vs0 with _ | w <;> rw [hfn] at htv <;>
          simp [FutureState.ofResult] at htv
      · rw [List.getElem?_set_ne (fun hh => hteq hh.symm)] at htv
        rcases hfail t htv with ⟨htl, tinv, vs, htask, hvals, hfn⟩ | hdep
        · exact Or.inl ⟨by simp [htl], tinv, vs, htask,
            argVals_mono hle hvals, hfn⟩
        · obtain ⟨tinv, u, htask, hu, hufail⟩ := hdep
          exact Or.inr ⟨tinv, u, htask, hu, hle u .failed (by simp) hufail⟩
  | propagate t0 inv0 u0 htask0 hpend0 hu0 hufail0 =>
    have ht0 : t0 < s.futures.length := getElem?_some_lt hpend0
    refine ⟨by simp [hlen], hback, ?_, ?_, ?_⟩
    · intro t htl
      obtain ⟨tinv, vs, htask, hvals⟩ := hdisp t htl
      exact ⟨tinv, vs, htask, argVals_mono hle hvals⟩
    · intro t v htv
      by_cases hteq : t = t0
      · subst hteq
        rw [List.getElem?_set_eq_of_lt _ ht0] at htv
        exact absurd htv (by simp)
      · rw [List.getElem?_set_ne (fun hh => hteq hh.symm)] at htv
        obtain ⟨tinv, vs, htask, hvals, hfn, htl⟩ := hres t v htv
        exact ⟨tinv, vs, htask, argVals_mono hle hvals, hfn, htl⟩
    · intro t htv
      by_cases hteq : t = t0
      · subst hteq
        exact Or.inr ⟨inv0, u0, htask0, hu0,
          hle u0 .failed (by simp) hufail0⟩
      · rw [List.getElem?_set_ne (fun hh => hteq hh.symm)] at htv
        rcases hfail t htv with ⟨htl, tinv, vs, htask, hvals, hfn⟩ | hdep
        · exact Or.inl ⟨htl, tinv, vs, htask, argVals_mono hle hvals, hfn⟩
        · obtain ⟨tinv, u, htask, hu, hufail⟩ := hdep
          exact Or.inr ⟨tinv, u, htask, hu, hle u .failed (by simp) hufail⟩

theorem reachable_inv {s : EngineState} (h : Reachable s) : EngineInv s := by
  induction h with
  | refl => exact inv_init
  | tail _ hstep ih => exact step_inv hstep ih

theorem notin_log_of_failed_dep {s : EngineState} (hinv : EngineInv s)
    {t u : Nat} {inv : TaskInvocation} (htask : s.tasks[t]? = some inv)
    (hu : Arg.ref u ∈ inv.args) (hufail : s.futures[u]? = some .failed) :
    t ∉ s.execLog := by
  intro htl
  obtain ⟨inv2, vs, htask2, hvals⟩ := hinv.2.2.1 t htl
  rw [htask] at htask2
  injection htask2 with he
  subst he
  obtain ⟨v, hv⟩ := argVals_some_ref hvals hu
  rw [hufail] at hv
  simp at hv

theorem settles_failed_of_failed_dep {s : EngineState} (hinv : EngineInv s)
    (hq : quiescent s = true) {t u : Nat} {inv : TaskInvocation}
    (htask : s.tasks[t]? = some inv) (hu : Arg.ref u ∈ inv.args)
    (hufail : s.futures[u]? = some .failed) :
    s.futures[t]? = some .failed := by
  have hnl := notin_log_of_failed_dep hinv htask hu hufail
  have ht : t < s.futures.length := by
    rw [hinv.1]; exact getElem?_some_lt htask
  obtain ⟨st, hsome⟩ : ∃ st, s.futures[t]? = some st :=
    ⟨_, List.getElem?_eq_getElem ht⟩
  cases st with
  | pending =>
    have hfd : hasFailedDep s.futures inv.args = true :=
      hasFailedDep_iff.mpr ⟨u, hu, hufail⟩
    have := (quiescent_pending hq htask hsome).2
    rw [hfd] at this
    cases this
  | resolved v =>
    obtain ⟨inv2, vs, htask2, hvals, hfn, htl⟩ := hinv.2.2.2.1 t v hsome
    exact absurd htl hnl
  | failed => exact hsome

/-- C4: in every reachable engine state, a dispatched task had (and keeps)
all of its FutureRef arguments Resolved; a task with a Failed FutureRef
argument is never dispatched and, once the engine is quiescent, its own
future is Failed.  Eligibility for dispatch is, by construction of the
model's execute step, exactly the condition that every FutureRef argument is
Resolved. -/
theorem task_dependency_gating (s : EngineState) (hr : Reachable s) (t : Nat)
    (inv : TaskInvocation) (htask : s.tasks[t]? = some inv) :
    (t ∈ s.execLog → ∃ vs, argVals s.futures inv.args = some vs) ∧
    (∀ u, Arg.ref u ∈ inv.args → s.futures[u]? = some .failed →
      t ∉ s.execLog ∧ (quiescent s = true → s.futures[t]? = some .failed)) := by
  have hinv := reachable_inv hr
  refine ⟨?_, ?_⟩
  · intro htl
    obtain ⟨inv2, vs, htask2, hvals⟩ := hinv.2.2.1 t htl
    rw [htask] at htask2
    injection htask2 with he
    subst he
    exact ⟨vs, hvals⟩
  · intro u hu hufail
    exact ⟨notin_log_of_failed_dep hinv htask hu hufail,
      fun hq => settles_failed_of_failed_dep hinv hq htask hu hufail⟩

/-- C5: a settled (Resolved or Failed) future keeps exactly its settled state
across every sequence of engine operations — a FutureRef is written once,
Pending to Resolved or Failed, and never reverts or changes value. -/
theorem futureref_write_once (s s' : EngineState) (t : Nat) (st : FutureState)
    (h : Relation.ReflTransGen EngineStep s s') (hne : st ≠ .pending)
    (hst : s.futures[t]? = some st) : s'.futures[t]? = some st :=
  star_settledLE h t st hne hst

/-- Modelled from the spec: the (transitive) dependency relation of the task
graph — `DependsOn tasks t u` holds when task `u`'s FutureRef occurs among
`t`'s arguments, directly or through intermediate tasks. -/
inductive DependsOn (tasks : List TaskInvocation) : Nat → Nat → Prop where
  | direct (t u : Nat) (inv : TaskInvocation) (htask : tasks[t]? = some inv)
      (hu : Arg.ref u ∈ inv.args) : DependsOn tasks t u
  | trans (t w u : Nat) (h1 : DependsOn tasks t w) (h2 : DependsOn tasks w u) :
      DependsOn tasks t u

theorem dependsOn_head {tasks : List TaskInvocation} {t u : Nat}
    (h : DependsOn tasks t u) :
    ∃ inv w, tasks[t]? = some inv ∧ Arg.ref w ∈ inv.args := by
  induction h with
  | direct t u inv htask hu => exact ⟨inv, u, htask, hu⟩
  | trans t w u h1 h2 ih1 ih2 => exact ih1

theorem dep_fail_aux {s : EngineState} (hinv : EngineInv s)
    (hq : quiescent s = true) {B A : Nat} (hdep : DependsOn s.tasks B A) :
    s.futures[A]? = some .failed →
      s.futures[B]? = some .failed ∧ B ∉ s.execLog := by
  induction hdep with
  | direct t u inv htask hu =>
    intro hAfail
    exact ⟨settles_failed_of_failed_dep hinv hq htask hu hAfail,
      notin_log_of_failed_dep hinv htask hu hAfail⟩
  | trans t w u h1 h2 ih1 ih2 =>
    intro hAfail
    exact ih1 (ih2 hAfail).1

theorem independent_resolves_aux {s : EngineState} (hinv : EngineInv s)
    (hq : quiescent s = true) (A : Nat)
    (htotal : ∀ (t : Nat) (inv2 : TaskInvocation), t ≠ A →
      s.tasks[t]? = some inv2 → ∀ vs, inv2.fn vs ≠ none) :
    ∀ (B : Nat) (inv : TaskInvocation), s.tasks[B]? = some inv → B ≠ A →
      ¬ DependsOn s.tasks B A → ∃ v, s.futures[B]? = some (.resolved v) := by
  obtain ⟨hlen, hback, hdisp, hres, hfail⟩ := hinv
  intro B
  induction B using Nat.strong_induction_on with
  | _ B ih =>
    intro inv htask hBA hndep
    have hdeps : ∀ a ∈ inv.args, ∃ v, argVal s.futures a = some v := by
      intro a ha
      cases a with
      | lit v => exact ⟨v, rfl⟩
      | ref u =>
        have hdirB : DependsOn s.tasks B u := .direct B u inv htask ha
        have huB : u < B := hback B inv htask u ha
        have huA : u ≠ A := by rintro rfl; exact hndep hdirB
        have hundep : ¬ DependsOn s.tasks u A := fun hd =>
          hndep (.trans B u A hdirB hd)
        have hulen : u < s.tasks.length :=
          lt_trans huB (getElem?_some_lt htask)
        obtain ⟨invu, htasku⟩ : ∃ iu, s.tasks[u]? = some iu :=
          ⟨_, List.getElem?_eq_getElem hulen⟩
        obtain ⟨v, hv⟩ := ih u huB invu htasku huA hundep
        exact ⟨v, by simp [argVal, hv]⟩
    obtain ⟨vs, hvs⟩ := argVals_of_forall hdeps
    have hB : B < s.futures.length := by
      rw [hlen]; exact getElem?_some_lt htask
    obtain ⟨st, hsome⟩ : ∃ st, s.futures[B]? = some st :=
      ⟨_, List.getElem?_eq_getElem hB⟩
    cases st with
    | pending =>
      have := (quiescent_pending hq htask hsome).1
      rw [hvs] at this
      cases this
    | resolved v => exact ⟨v, hsome⟩
    | failed =>
      rcases hfail B hsome with ⟨htl, inv2, vs2, htask2, hvals2, hfn2⟩ | hdep
      · rw [htask] at htask2
        injection htask2 with he
        subst he
        exact absurd hfn2 (htotal B inv hBA htask vs2)
      · obtain ⟨inv2, u, htask2, hu2, hufail2⟩ := hdep
        rw [htask] at htask2
        injection htask2 with he
        subst he
        obtain ⟨v, hv⟩ := hdeps (Arg.ref u) hu2
        simp [argVal, hufail2] at hv

/-- C2: once the engine is quiescent, a failed task A has poisoned exactly
its dependents — every task with a dependency path to A is Failed and was
never dispatched, while every other task (when only A's body can fail)
completed normally with a Resolved future. -/
theorem failure_propagation (s : EngineState) (hr : Reachable s)
    (hq : quiescent s = true) (A : Nat)
    (hA : s.futures[A]? = some .failed) :
    (∀ B, DependsOn s.tasks B A →
      s.futures[B]? = some .failed ∧ B ∉ s.execLog) ∧
    (∀ (B : Nat) (inv : TaskInvocation), s.tasks[B]? = some inv → B ≠ A →
      ¬ DependsOn s.tasks B A →
      (∀ (t : Nat) (inv2 : TaskInvocation), t ≠ A →
        s.tasks[t]? = some inv2 → ∀ vs, inv2.fn vs ≠ none) →
      ∃ v, s.futures[B]? = some (.resolved v)) := by
  have hinv := reachable_inv hr
  constructor
  · intro B hdep
    exact dep_fail_aux hinv hq hdep hA
  · intro B inv htask hBA hndep htotal
    exact independent_resolves_aux hinv hq A htotal B inv htask hBA hndep

/-- A task whose body raises an ExecutionError. -/
def exTask0 : TaskInvocation := ⟨fun _ => none, []⟩

/-- A task depending on task 0 through a FutureRef argument. -/
def exTask1 : TaskInvocation := ⟨fun vs => some (vs.headD 0), [Arg.ref 0]⟩

/-- An independent task with no dependencies. -/
def exTask2 : TaskInvocation := ⟨fun _ => some 5, []⟩

def exS1 : EngineState := ⟨[exTask0], [.pending], []⟩

def exS2 : EngineState := ⟨[exTask0, exTask1], [.pending, .pending], []⟩

def exS3 : EngineState :=
  ⟨[exTask0, exTask1, exTask2], [.pending, .pending, .pending], []⟩

def exS4 : EngineState :=
  ⟨[exTask0, exTask1, exTask2], [.failed, .pending, .pending], [0]⟩

def exS5 : EngineState :=
  ⟨[exTask0, exTask1, exTask2], [.failed, .failed, .pending], [0]⟩

def exFinal : EngineState :=
  ⟨[exTask0, exTask1, exTask2], [.failed, .failed, .resolved 5], [0, 2]⟩

theorem exStep1 : EngineStep EngineState.init exS1 :=
  EngineStep.submit EngineState.init exTask0 (by intro u hu; simp [exTask0] at hu)

theorem exStep2 : EngineStep exS1 exS2 :=
  EngineStep.submit exS1 exTask1
    (by intro u hu; simp [exTask1] at hu; subst hu; simp [exS1])

theorem exStep3 : EngineStep exS2 exS3 :=
  EngineStep.submit exS2 exTask2 (by intro u hu; simp [exTask2] at hu)

theorem exStep4 : EngineStep exS3 exS4 :=
  EngineStep.execute exS3 0 exTask0 [] rfl rfl rfl

theorem exStep5 : EngineStep exS4 exS5 :=
  EngineStep.propagate exS4 1 exTask1 0 rfl rfl (by simp [exTask1]) rfl

theorem exStep6 : EngineStep exS5 exFinal :=
  EngineStep.execute exS5 2 exTask2 [] rfl rfl rfl

theorem exTail : Relation.ReflTransGen EngineStep exS4 exFinal :=
  Relation.ReflTransGen.head exStep5 (Relation.ReflTransGen.single exStep6)

theorem exFinal_reachable : Reachable exFinal :=
  Relation.ReflTransGen.head exStep1
    (Relation.ReflTransGen.head exStep2
      (Relation.ReflTransGen.head exStep3
        (Relation.ReflTransGen.head exStep4 exTail)))

/-- C5 witness: in the concrete failed-chain run, task 0's future is Failed
in the intermediate state and stays exactly Failed to the end of the run. -/
theorem futureref_write_once_app :
    exS4.futures[0]? = some .failed ∧ exFinal.futures[0]? = some .failed :=
  ⟨rfl, futureref_write_once exS4 exFinal 0 .failed exTail (by simp) rfl⟩

/-- C4 witness: in the concrete run, task 1 has the Failed future of task 0
as an argument; it was never dispatched, and its own future is Failed in the
final quiescent state. -/
theorem task_dependency_gating_app :
    1 ∉ exFinal.execLog ∧ exFinal.futures[1]? = some .failed := by
  have h := (task_dependency_gating exFinal exFinal_reachable 1 exTask1 rfl).2
      0 (by simp [exTask1]) rfl
  exact ⟨h.1, h.2 rfl⟩

/-- C2 witness: in the concrete run, the dependent task 1 is Failed and was
never dispatched, while the independent task 2 resolved normally. -/
theorem failure_propagation_app :
    (exFinal.futures[1]? = some .failed ∧ 1 ∉ exFinal.execLog) ∧
      ∃ v, exFinal.futures[2]? = some (.resolved v) := by
  have h := failure_propagation exFinal exFinal_reachable rfl 0 rfl
  refine ⟨h.1 1 (DependsOn.direct 1 0 exTask1 rfl (by simp [exTask1])),
    h.2 2 exTask2 rfl (by omega) ?_ ?_⟩
  · intro hdep
    obtain ⟨inv, w, htask, hw⟩ := dependsOn_head hdep
    have h0 : exFinal.tasks[2]? = some exTask2 := rfl
    rw [htask] at h0
    injection h0 with h0
    subst h0
    simp [exTask2] at hw
  · intro t inv2 ht htask vs
    rcases t with _ | t
    · exact absurd rfl ht
    rcases t with _ | t
    · have h0 : exFinal.tasks[1]? = some exTask1 := rfl
      rw [htask] at h0
      injection h0 with h0
      subst h0
      simp [exTask1]
    rcases t with _ | t
    · have h0 : exFinal.tasks[2]? = some exTask2 := rfl
      rw [htask] at h0
      injection h0 with h0
      subst h0
      simp [exTask2]
    · simp [exFinal] at htask

/-- C3: submitting a side-effect-free function on literal arguments and then
blocking on the returned FutureRef yields exactly the function's direct
result on those arguments (round-trip of `submit` and `resolve`). -/
theorem submit_resolve_roundtrip (s : EngineState)
    (hwf : s.futures.length = s.tasks.length)
    (f : List Int → Option Int) (xs : List Int) (v : Int)
    (hf : f xs = some v) :
    ((s.submit ⟨f, xs.map Arg.lit⟩).1.runTask
        (s.submit ⟨f, xs.map Arg.lit⟩).2).resolve
      (s.submit ⟨f, xs.map Arg.lit⟩).2 = some v := by
  have htask : (s.submit ⟨f, xs.map Arg.lit⟩).1.tasks[s.tasks.length]? =
      some (⟨f, xs.map Arg.lit⟩ : TaskInvocation) :=
    List.getElem?_concat_length _ _
  have hpend : (s.submit ⟨f, xs.map Arg.lit⟩).1.futures[s.tasks.length]? =
      some FutureState.pending := by
    show (s.futures ++ [FutureState.pending])[s.tasks.length]? = _
    rw [← hwf]
    exact List.getElem?_concat_length _ _
  have hlt : s.tasks.length <
      (s.submit ⟨f, xs.map Arg.lit⟩).1.futures.length := by
    show s.tasks.length < (s.futures ++ [FutureState.pending]).length
    simp [hwf]
  show ((s.submit ⟨f, xs.map Arg.lit⟩).1.runTask s.tasks.length).resolve
      s.tasks.length = some v
  unfold EngineState.runTask
  rw [htask, hpend]
  simp only [hasFailedDep_lit, argVals_lit, Bool.false_eq_true, if_false, hf]
  show EngineState.resolve _ s.tasks.length = some v
  unfold EngineState.resolve
  rw [show ((s.submit ⟨f, xs.map Arg.lit⟩).1.futures.set s.tasks.length
      (FutureState.ofResult (some v)))[s.tasks.length]? =
      some (FutureState.ofResult (some v)) from
    List.getElem?_set_eq_of_lt _ hlt]
  rfl

/-- C3 witness: round-trip on the concrete source function `add` at the
arguments (2, 3) starting from the empty engine. -/
theorem submit_resolve_roundtrip_app :
    ((EngineState.init.submit
        ⟨fun vs => some (vs.headD 0 + (vs.drop 1).headD 0),
          [(2 : Int), 3].map Arg.lit⟩).1.runTask
      (EngineState.init.submit
        ⟨fun vs => some (vs.headD 0 + (vs.drop 1).headD 0),
          [(2 : Int), 3].map Arg.lit⟩).2).resolve
      (EngineState.init.submit
        ⟨fun vs => some (vs.headD 0 + (vs.drop 1).headD 0),
          [(2 : Int), 3].map Arg.lit⟩).2 = some 5 :=
  submit_resolve_roundtrip EngineState.init rfl
    (fun vs => some (vs.headD 0 + (vs.drop 1).headD 0)) [2, 3] 5 rfl

theorem runTask_tasks (s : EngineState) (t : Nat) :
    (s.runTask t).tasks = s.tasks := by
  unfold EngineState.runTask
  split
  · split
    · rfl
    · split <;> rfl
  · rfl

theorem runTask_futures_other {s : EngineState} {t u : Nat} (hne : t ≠ u) :
    (s.runTask t).futures[u]? = s.futures[u]? := by
  unfold EngineState.runTask
  split
  · split
    · exact List.getElem?_set_ne hne
    · split
      · exact List.getElem?_set_ne hne
      · rfl
  · rfl

theorem runTask_settled {s : EngineState} {u : Nat} {st : FutureState}
    (hne : st ≠ .pending) (h : s.futures[u]? = some st) (t : Nat) :
    (s.runTask t).futures[u]? = some st := by
  by_cases hteq : t = u
  · subst hteq
    unfold EngineState.runTask
    split
    · rename_i inv heq1 heq2
      rw [h] at heq2
      injection heq2 with heq2
      exact absurd heq2 hne
    · exact h
  · rw [runTask_futures_other hteq]
    exact h

theorem runTask_lit {s : EngineState} {t : Nat} {f : List Int → Option Int}
    {xs : List Int} (htask : s.tasks[t]? = some ⟨f, xs.map Arg.lit⟩)
    (hpend : s.futures[t]? = some .pending) :
    (s.runTask t).futures[t]? = some (FutureState.ofResult (f xs)) := by
  have hlt : t < s.futures.length := getElem?_some_lt hpend
  unfold EngineState.runTask
  split
  · rename_i inv heq1 heq2
    rw [htask] at heq1
    injection heq1 with heq1
    subst heq1
    simp only [hasFailedDep_lit, Bool.false_eq_true, if_false, argVals_lit]
    exact List.getElem?_set_eq_of_lt _ hlt
  · rename_i hno
    exact ((hno ⟨f, xs.map Arg.lit⟩ htask hpend).elim :)

theorem runOrder_settled (order : List Nat) {s : EngineState} {u : Nat}
    {st : FutureState} (hne : st ≠ .pending)
    (h : s.futures[u]? = some st) :
    (runTasksInOrder s order).futures[u]? = some st := by
  induction order generalizing s with
  | nil => exact h
  | cons o rest ih => exact ih (runTask_settled hne h o)

theorem runOrder_lit (order : List Nat) (s : EngineState) (t : Nat)
    (f : List Int → Option Int) (xs : List Int) (v : Int)
    (hmem : t ∈ order) (htask : s.tasks[t]? = some ⟨f, xs.map Arg.lit⟩)
    (hpend : s.futures[t]? = some .pending) (hf : f xs = some v) :
    (runTasksInOrder s order).futures[t]? = some (.resolved v) := by
  induction order generalizing s with
  | nil => cases hmem
  | cons o rest ih =>
    by_cases ho : o = t
    · subst ho
      have h1 := runTask_lit htask hpend
      rw [hf] at h1
      exact runOrder_settled rest (by simp [FutureState.ofResult]) h1
    · have hmem2 : t ∈ rest := by
        rcases List.mem_cons.mp hmem with h | h
        · exact absurd h.symm ho
        · exact h
      exact ih (s.runTask o) hmem2 (by rw [runTask_tasks]; exact htask)
        (by rw [runTask_futures_other ho]; exact hpend)

/-- The identity task body of the source function `f`, which sleeps and
returns its argument unchanged. -/
def idFn : List Int → Option Int
  | [x] => some x
  | _ => none

/-- An engine preloaded with the given tasks, all Pending, none dispatched. -/
def mkState (ts : List TaskInvocation) : EngineState :=
  ⟨ts, List.replicate ts.length .pending, []⟩

/-- The four independent tasks f(0), f(1), f(2), f(3) of the source's
first example. -/
def fourTasks : List TaskInvocation :=
  [⟨idFn, [Arg.lit 0]⟩, ⟨idFn, [Arg.lit 1]⟩, ⟨idFn, [Arg.lit 2]⟩,
    ⟨idFn, [Arg.lit 3]⟩]

/-- C6: whatever the order in which the four independent tasks f(0)…f(3)
are dispatched and complete, the batch resolve of their refs in submission
order returns exactly [0, 1, 2, 3] — results follow the order of the
requested refs, not completion order. -/
theorem batch_resolve_order (order : List Nat) (h : order.Perm [0, 1, 2, 3]) :
    (runTasksInOrder (mkState fourTasks) order).resolveMany [0, 1, 2, 3] =
      some [0, 1, 2, 3] := by
  have h0 := runOrder_lit order (mkState fourTasks) 0 idFn [0] 0
    (h.mem_iff.mpr (by decide)) rfl rfl rfl
  have h1 := runOrder_lit order (mkState fourTasks) 1 idFn [1] 1
    (h.mem_iff.mpr (by decide)) rfl rfl rfl
  have h2 := runOrder_lit order (mkState fourTasks) 2 idFn [2] 2
    (h.mem_iff.mpr (by decide)) rfl rfl rfl
  have h3 := runOrder_lit order (mkState fourTasks) 3 idFn [3] 3
    (h.mem_iff.mpr (by decide)) rfl rfl rfl
  simp [EngineState.resolveMany, EngineState.resolve, h0, h1, h2, h3]

/-- C6 witness: the completion order 2, 0, 3, 1 still yields [0, 1, 2, 3]. -/
theorem batch_resolve_order_app :
    ([2, 0, 3, 1] : List Nat).Perm [0, 1, 2, 3] ∧
      (runTasksInOrder (mkState fourTasks) [2, 0, 3, 1]).resolveMany
        [0, 1, 2, 3] = some [0, 1, 2, 3] :=
  ⟨by decide, batch_resolve_order [2, 0, 3, 1] (by decide)⟩

/-- Modelled from the spec: the runtime view of one actor and its racing
callers — invocations not yet issued (one per caller), the actor's dedicated
FIFO queue, the log of invocations in enqueue order, and the private
ActorState. -/
structure ActorSys (σ : Type) where
  toIssue : List (σ → σ)
  queue : List (σ → σ)
  log : List (σ → σ)
  state : σ

/-- Modelled from the spec: actor-runtime steps.  An issue step lets any
still-pending caller enqueue its invocation next (modelling every
interleaving of concurrent issuance); a process step lets the actor's single
execution slot run exactly the head of the queue against the state.  Mutual
exclusion per actor is structural: only the process step touches the state,
one invocation at a time, in queue order. -/
inductive ActorStep {σ : Type} : ActorSys σ → ActorSys σ → Prop where
  | issue (s : ActorSys σ) (l1 l2 : List (σ → σ)) (m : σ → σ)
      (h : s.toIssue = l1 ++ m :: l2) :
      ActorStep s ⟨l1 ++ l2, s.queue ++ [m], s.log ++ [m], s.state⟩
  | process (s : ActorSys σ) (m : σ → σ) (rest : List (σ → σ))
      (h : s.queue = m :: rest) :
      ActorStep s ⟨s.toIssue, rest, s.log, m s.state⟩

/-- Sequential execution of a list of invocations against a state. -/
def actorRun {σ : Type} (st : σ) (ms : List (σ → σ)) : σ :=
  ms.foldl (fun a m => m a) st

theorem actorStep_inv {σ : Type} (s0 s s' : ActorSys σ)
    (hstep : ActorStep s s')
    (h1 : ∃ done, s.log = done ++ s.queue ∧ s.state = actorRun s0.state done)
    (h2 : (s.toIssue ++ s.log).Perm (s0.toIssue ++ s0.log)) :
    (∃ done, s'.log = done ++ s'.queue ∧
      s'.state = actorRun s0.state done) ∧
      (s'.toIssue ++ s'.log).Perm (s0.toIssue ++ s0.log) := by
  obtain ⟨done, hlq, hst⟩ := h1
  cases hstep with
  | issue l1 l2 m h =>
    refine ⟨⟨done, by simp [hlq, List.append_assoc], hst⟩, ?_⟩
    show ((l1 ++ l2) ++ (s.log ++ [m])).Perm (s0.toIssue ++ s0.log)
    have p1 : ((l1 ++ l2) ++ (s.log ++ [m])).Perm
        (m :: ((l1 ++ l2) ++ s.log)) :=
      (List.Perm.append_left _ (List.perm_append_singleton _ _)).trans
        List.perm_middle
    have p2 : ((l1 ++ m :: l2) ++ s.log).Perm
        (m :: ((l1 ++ l2) ++ s.log)) :=
      List.Perm.append_right _ List.perm_middle
    have p3 : (s.toIssue ++ s.log).Perm (s0.toIssue ++ s0.log) := h2
    rw [h] at p3
    exact (p1.trans p2.symm).trans p3
  | process m rest h =>
    refine ⟨⟨done ++ [m], ?_, ?_⟩, h2⟩
    · show s.log = (done ++ [m]) ++ rest
      rw [hlq, h]
      simp
    · show m s.state = actorRun s0.state (done ++ [m])
      rw [hst]
      simp [actorRun, List.foldl_append]

theorem actorStar_inv {σ : Type} (s0 s : ActorSys σ)
    (h : Relation.ReflTransGen ActorStep s0 s)
    (hq0 : s0.queue = []) (hl0 : s0.log = []) :
    (∃ done, s.log = done ++ s.queue ∧ s.state = actorRun s0.state done) ∧
      (s.toIssue ++ s.log).Perm (s0.toIssue ++ s0.log) := by
  induction h with
  | refl => exact ⟨⟨[], by simp [hq0, hl0], rfl⟩, List.Perm.refl _⟩
  | tail hstar hstep ih => exact actorStep_inv s0 _ _ hstep ih.1 ih.2

/-- C1: for every interleaving of issuance of the callers' invocations on a
single actor, a completed run leaves the actor in exactly the state obtained
by executing the whole enqueue-ordered log sequentially, and that log is a
permutation of the issued invocations; the process step applies one
invocation at a time, so no two method invocations ever execute
concurrently. -/
theorem actor_serial_execution {σ : Type} (s0 s : ActorSys σ)
    (hq0 : s0.queue = []) (hl0 : s0.log = [])
    (htr : Relation.ReflTransGen ActorStep s0 s)
    (hissued : s.toIssue = []) (hdone : s.queue = []) :
    s.state = actorRun s0.state s.log ∧ s.log.Perm s0.toIssue := by
  obtain ⟨⟨done, hlq, hst⟩, hperm⟩ := actorStar_inv s0 s htr hq0 hl0
  rw [hdone, List.append_nil] at hlq
  subst hlq
  refine ⟨hst, ?_⟩
  rw [hissued, List.nil_append, hl0, List.append_nil] at hperm
  exact hperm

/-- C1 witness: two racing callers on one Int-state actor, issued in the
opposite of their listing order; the final state 7 is exactly the
sequential execution of the enqueue order, a permutation of the issued
invocations. -/
theorem actor_serial_execution_app :
    (7 : Int) = actorRun 3 [fun n => n * 2, fun n => n + 1] ∧
      ([fun n => n * 2, fun n => n + 1] : List (Int → Int)).Perm
        [fun n => n + 1, fun n => n * 2] := by
  have htr : Relation.ReflTransGen (@ActorStep Int)
      ⟨[fun n => n + 1, fun n => n * 2], [], [], 3⟩
      ⟨[], [], [fun n => n * 2, fun n => n + 1], 7⟩ := by
    refine Relation.ReflTransGen.head
      (ActorStep.issue _ [fun n => n + 1] [] (fun n => n * 2) rfl) ?_
    refine Relation.ReflTransGen.head
      (ActorStep.issue _ [] [] (fun n => n + 1) rfl) ?_
    refine Relation.ReflTransGen.head
      (ActorStep.process _ (fun n => n * 2) [fun n => n + 1] rfl) ?_
    refine Relation.ReflTransGen.head
      (ActorStep.process _ (fun n => n + 1) [] rfl) ?_
    exact Relation.ReflTransGen.refl
  exact actor_serial_execution
    ⟨[fun n => n + 1, fun n => n * 2], [], [], 3⟩
    ⟨[], [], [fun n => n * 2, fun n => n + 1], 7⟩ rfl rfl htr rfl rfl

/-- Modelled from the spec: the Actor Runtime processes one actor's queue
strictly FIFO, threading the private state through each method body and
recording each invocation's returned value in order. -/
def runMethods {σ ρ : Type} (st : σ) :
    List (σ → σ × Option ρ) → σ × List (Option ρ)
  | [] => (st, [])
  | m :: rest =>
    let p := m st
    let q := runMethods p.1 rest
    (q.1, p.2 :: q.2)

/-- Translated from the source class `Counter`: the constructor sets the
field x to 0. -/
def Counter.initState : Int := 0

/-- Translated from the source: `inc` performs x += 1 and returns None. -/
def Counter.inc (x : Int) : Int × Option Int := (x + 1, none)

/-- Translated from the source: `get_value` returns x unchanged. -/
def Counter.get_value (x : Int) : Int × Option Int := (x, some x)

/-- C7: on a fresh Counter actor, the single caller's program-order queue
get_value, inc, inc, get_value executes FIFO; the first get_value resolves
to 0 and the final one to 2. -/
theorem counter_program_order :
    runMethods Counter.initState
      [Counter.get_value, Counter.inc, Counter.inc, Counter.get_value] =
      (2, [some 0, none, none, some 2]) := rfl

/-- Translated from the source class `MessageActor`: the constructor sets
messages to the empty list; `add_message` appends one message and returns
None. -/
def MessageActor.add_message (msg : String) (s : List String) :
    List String × Option (List String) := (s ++ [msg], none)

/-- Translated from the source: `get_and_clear_message` returns the current
messages and resets the state to the empty list. -/
def MessageActor.get_and_clear_message (s : List String) :
    List String × Option (List String) := ([], some s)

theorem runMethods_append {σ ρ : Type} (st : σ)
    (l1 l2 : List (σ → σ × Option ρ)) :
    runMethods st (l1 ++ l2) =
      ((runMethods (runMethods st l1).1 l2).1,
        (runMethods st l1).2 ++ (runMethods (runMethods st l1).1 l2).2) := by
  induction l1 generalizing st with
  | nil => simp [runMethods]
  | cons m rest ih => simp [runMethods, ih]

theorem runMethods_adds (order : List String) (st : List String) :
    (runMethods st (order.map MessageActor.add_message)).1 = st ++ order := by
  induction order generalizing st with
  | nil => simp [runMethods]
  | cons m rest ih => simp [runMethods, MessageActor.add_message, ih]

/-- C8: when N worker tasks sharing one MessageActor handle each enqueue a
single add_message — in any issuance order, i.e. any permutation of the
messages — a draining get_and_clear enqueued after all of them returns a
log of exactly those N messages: none lost, none duplicated. -/
theorem message_actor_drain (msgs order : List String) (n : Nat)
    (hn : msgs.length = n) (hperm : order.Perm msgs) :
    (runMethods ([] : List String)
        (order.map MessageActor.add_message ++
          [MessageActor.get_and_clear_message])).2.getLast? =
      some (some order) ∧ order.length = n := by
  constructor
  · rw [runMethods_append]
    simp [runMethods, runMethods_adds, MessageActor.get_and_clear_message]
  · rw [← hn]
    exact hperm.length_eq

/-- C8 witness: three workers racing to add their messages in the order
b, a, c; the drain returns exactly those three messages. -/
theorem message_actor_drain_app :
    (runMethods ([] : List String)
        ((["b", "a", "c"] : List String).map MessageActor.add_message ++
          [MessageActor.get_and_clear_message])).2.getLast? =
      some (some ["b", "a", "c"]) ∧
      (["b", "a", "c"] : List String).length = 3 :=
  message_actor_drain ["a", "b", "c"] ["b", "a", "c"] 3 rfl (by decide)

/-- Translated from the source function `add`: sleeps one second, then
returns x + y. -/
def addFn : List Int → Option Int
  | [x, y] => some (x + y)
  | _ => none

/-- Modelled from the spec: an assignment of start times is a valid schedule
when every task starts no earlier than the finish time (start plus duration)
of each task named by one of its FutureRef arguments; task bodies run to
completion without preemption. -/
def ValidSchedule (tasks : List TaskInvocation) (dur st : Nat → Nat) : Prop :=
  ∀ (t : Nat) (inv : TaskInvocation), tasks[t]? = some inv →
    ∀ u, Arg.ref u ∈ inv.args → st u + dur u ≤ st t

/-- C9: for a linear chain in which each task's FutureRef feeds the next
task, every valid schedule finishes the last task no earlier than the first
task's start plus the sum of all per-task durations — wall time is at least
the sum of the individual execution times. -/
theorem chain_wall_time (tasks : List TaskInvocation) (dur st : Nat → Nat)
    (n : Nat) (hn : 0 < n)
    (hchain : ∀ i, i + 1 < n →
      ∃ inv, tasks[i + 1]? = some inv ∧ Arg.ref i ∈ inv.args)
    (hvalid : ValidSchedule tasks dur st) :
    st 0 + ((List.range n).map dur).sum ≤ st (n - 1) + dur (n - 1) := by
  have aux : ∀ i, i < n → st 0 + ((List.range i).map dur).sum ≤ st i := by
    intro i
    induction i with
    | zero => intro _; simp
    | succ i ih =>
      intro hi
      obtain ⟨inv, htask, href⟩ := hchain i hi
      have h1 := hvalid (i + 1) inv htask i href
      have h2 := ih (by omega)
      rw [List.range_succ]
      simp only [List.map_append, List.sum_append, List.map_cons,
        List.map_nil, List.sum_cons, List.sum_nil]
      omega
  obtain ⟨m, rfl⟩ : ∃ m, n = m + 1 := ⟨n - 1, by omega⟩
  simp only [Nat.add_sub_cancel]
  have h3 := aux m (by omega)
  rw [List.range_succ]
  simp only [List.map_append, List.sum_append, List.map_cons,
    List.map_nil, List.sum_cons, List.sum_nil]
  omega

/-- Translated from the source (part III, slow path): the seven `add` tasks
chained linearly, id1 = add(1,2), id(k+1) = add(idk, k+2). -/
def chainTasks : List TaskInvocation :=
  [⟨addFn, [Arg.lit 1, Arg.lit 2]⟩, ⟨addFn, [Arg.ref 0, Arg.lit 3]⟩,
    ⟨addFn, [Arg.ref 1, Arg.lit 4]⟩, ⟨addFn, [Arg.ref 2, Arg.lit 5]⟩,
    ⟨addFn, [Arg.ref 3, Arg.lit 6]⟩, ⟨addFn, [Arg.ref 4, Arg.lit 7]⟩,
    ⟨addFn, [Arg.ref 5, Arg.lit 8]⟩]

/-- C9 witness: the source's seven-task add chain, each task of duration 1,
scheduled back to back (task i starts at time i): the chain finishes no
earlier than 7 time units after the first start. -/
theorem chain_wall_time_app :
    ValidSchedule chainTasks (fun _ => 1) (fun i => i) ∧
      (fun i => i) 0 + ((List.range 7).map (fun _ => 1)).sum ≤
        (fun i => i) (7 - 1) + (fun _ => 1) (7 - 1) := by
  have hvalid : ValidSchedule chainTasks (fun _ => 1) (fun i => i) := by
    intro t inv htask u hu
    have ht : t < chainTasks.length := getElem?_some_lt htask
    have ht7 : t < 7 := ht
    interval_cases t <;>
      (injection htask with he; subst he; simp [chainTasks] at hu ⊢) <;>
      omega
  refine ⟨hvalid, ?_⟩
  exact chain_wall_time chainTasks (fun _ => 1) (fun i => i) 7 (by omega)
    (by
      intro i hi
      have hi6 : i < 6 := by omega
      interval_cases i <;>
        exact ⟨_, rfl, by simp [chainTasks]⟩)
    hvalid

/-- Translated from the source (part III, fast path): the balanced pairwise
tree of `add` tasks over the leaves 1..8. -/
def treeTasks : List TaskInvocation :=
  [⟨addFn, [Arg.lit 1, Arg.lit 2]⟩, ⟨addFn, [Arg.lit 3, Arg.lit 4]⟩,
    ⟨addFn, [Arg.lit 5, Arg.lit 6]⟩, ⟨addFn, [Arg.lit 7, Arg.lit 8]⟩,
    ⟨addFn, [Arg.ref 0, Arg.ref 1]⟩, ⟨addFn, [Arg.ref 2, Arg.ref 3]⟩,
    ⟨addFn, [Arg.ref 4, Arg.ref 5]⟩]

/-- Translated from the source while loop (part III): as long as more than
one value remains, submit add on the first two values and append the new
FutureRef in their place; the fuel argument (at least the list length)
makes the recursion structural.  Returns the engine and the single
remaining value slot. -/
def loopAggFuel : Nat → EngineState → List Arg → EngineState × Option Arg
  | _, s, [] => (s, none)
  | _, s, [v] => (s, some v)
  | 0, s, _ :: _ :: _ => (s, none)
  | fuel + 1, s, v0 :: v1 :: rest =>
    loopAggFuel fuel (s.submit ⟨addFn, [v0, v1]⟩).1
      (rest ++ [Arg.ref s.tasks.length])

/-- The source while loop run from the values 1..8 against a fresh engine. -/
def loopAgg (s : EngineState) (values : List Arg) : EngineState × Option Arg :=
  loopAggFuel values.length s values

/-- Resolved value of the source's depth-7 linear chain after running all
its tasks in dependency order. -/
def chainResult : Option Int := (runAll (mkState chainTasks)).resolve 6

/-- Resolved value of the source's depth-3 tree after running all its tasks
in dependency order. -/
def treeResult : Option Int := (runAll (mkState treeTasks)).resolve 6

/-- Resolved value of the source's while-loop aggregation over 1..8. -/
def loopResult : Option Int :=
  match loopAgg EngineState.init [Arg.lit 1, Arg.lit 2, Arg.lit 3, Arg.lit 4,
      Arg.lit 5, Arg.lit 6, Arg.lit 7, Arg.lit 8] with
  | (s, some a) => argVal (runAll s).futures a
  | (_, none) => none

/-- C10: the three aggregation shapes over the leaves 1..8 — the depth-7
linear chain, the depth-3 balanced tree, and the while-loop variant — all
resolve to the same final value 36; the shape changes scheduling only,
never the result. -/
theorem aggregation_shapes_agree :
    chainResult = some 36 ∧ treeResult = some 36 ∧ loopResult = some 36 :=
  ⟨rfl, rfl, rfl⟩
